import Mathlib

/-!
Verification of the PySyft MNIST tutorial orchestration loops.

The repository contains two tutorial notebooks:
* an encrypted-training notebook (secret-sharing variant) whose in-repo logic
  is the `Arguments` hyperparameters, the `get_private_data_loaders` data
  selection, and the `train` / `test` / epoch-loop orchestration;
* a federated-averaging notebook whose in-repo logic is the epoch loop calling
  `rwc.train` / `rwc.test` (the bodies of those live in
  `run_websocket_client.py`, which is not part of the supplied sources and is
  therefore modelled from the specification, as marked below).

Tensors are embedded as lists of rationals.  The cryptographic layer
(secret sharing, fixed precision, autograd over shares) is the external
library's responsibility; its observable orchestration-level behaviour is
captured by an event trace: every `.get().float_precision()` call in the
source becomes a `reveal` event carrying the value disclosed, and forward /
local-step operations become events so that invocation counts and ordering
can be stated.  Automatic differentiation is external, so the gradient of the
loss is an abstract function argument `g`, exactly as the Python `train`
receives an opaque `model` / `optimizer` pair.
-/

namespace Syft

/-- A tensor, flattened to a list of rationals (the fixed-precision field
encoding is the external library's concern). -/
abbrev Vec := List ℚ

/-- Hyperparameters of the secret-sharing notebook, from the `Arguments`
class: `batch_size = 64`, `test_batch_size = 64`, `epochs = 10`, `lr = 0.02`,
`seed = 1`, `log_interval = 1`, `precision_fractional = 3`. -/
structure Arguments where
  batch_size : Nat
  test_batch_size : Nat
  epochs : Nat
  lr : ℚ
  seed : Nat
  log_interval : Nat
  precision_fractional : Nat

/-- The concrete arguments instantiated in the notebook. -/
def args : Arguments := ⟨64, 64, 10, 2/100, 1, 1, 3⟩

/-- A training batch of the private train loader: a list of input tensors and
the corresponding one-hot target rows (built by `one_hot_of`). -/
structure TrainBatch where
  data : List Vec
  target : List Vec

/-- A test batch of the private test loader: inputs and float class labels
(`target.float()` in the source). -/
structure TestBatch where
  data : List Vec
  target : List ℚ

/-- `one_hot_of` from `get_private_data_loaders`: class index to a one-hot
row over the 10 MNIST classes. -/
def one_hot_of (index_tensor : List Nat) : List Vec :=
  index_tensor.map (fun ix => (List.range 10).map (fun j => if j = ix then (1 : ℚ) else 0))

/-- Model state threaded through the loops: the (secret-shared) parameter
tensor, the gradient tensor held by the optimizer, and the train/eval mode
flag toggled by `model.train()` / `model.eval()`. -/
structure Model where
  params : Vec
  grads : Vec
  training : Bool
deriving DecidableEq

/-- The value disclosed by a `.get().float_precision()` call.  The
constructors cover everything the orchestration could in principle reveal;
the source only ever reveals the first two. -/
inductive RevealedValue where
  | scalarLoss (q : ℚ)
  | correctCount (q : ℚ)
  | paramTensor (t : Vec)
  | batchTensor (t : List Vec)
deriving DecidableEq

/-- Observable events of the secret-sharing orchestration. -/
inductive Event where
  | forwardPass (gradTracking : Bool)
  | localStep
  | reveal (v : RevealedValue)
deriving DecidableEq

/-- `optimizer.zero_grad()`: every parameter's gradient is set to zero. -/
def zeroGrads (g : Vec) : Vec := g.map (fun _ => 0)

/-- Pointwise tensor addition (gradient accumulation in `backward`). -/
def vadd (a b : Vec) : Vec := List.zipWith (fun x y => x + y) a b

/-- `optimizer.step()` for plain SGD with fixed learning rate:
`p := p - lr * p.grad`. -/
def sgdUpdate (lr : ℚ) (p g : Vec) : Vec := List.zipWith (fun x gx => x - lr * gx) p g

/-- The loss computed by `train`:
`loss = ((output - target)**2).sum().refresh()/batch_size` with
`output = model(data)` and `batch_size = output.shape[0]`
(`refresh` re-randomizes shares and does not change the value). -/
def batchLoss (f : Vec → Vec → Vec) (p : Vec) (b : TrainBatch) : ℚ :=
  (List.zipWith (fun o t => (List.zipWith (fun x y => (x - y) * (x - y)) o t).sum)
      (b.data.map (f p)) b.target).sum / ((b.data.map (f p)).length : ℚ)

/-- Written from the specification's words, as the refinement target for the
loss: the mean over the batch of the squared difference between model output
and one-hot target. -/
def specMeanSquaredError (f : Vec → Vec → Vec) (p : Vec) (b : TrainBatch) : ℚ :=
  ((List.range b.data.length).map (fun i =>
      (List.zipWith (fun x y => (x - y) * (x - y)) (f p (b.data.getD i [])) (b.target.getD i [])).sum)).sum
    / (b.data.length : ℚ)

/-- One iteration of the `train` loop body, for batch number `batchIdx`:
`optimizer.zero_grad()`; `output = model(data)`; the mean-squared-error loss;
`loss.backward()` (the abstract autograd gradient `g` is accumulated into the
zeroed gradients); `optimizer.step()`; and, every `log_interval` batches, the
reveal `loss.get().float_precision()` of the scalar loss. -/
def trainStep (a : Arguments) (f : Vec → Vec → Vec) (g : Vec → TrainBatch → Vec)
    (m : Model) (batchIdx : Nat) (b : TrainBatch) : Model × List Event :=
  let m1 : Model := { m with grads := zeroGrads m.grads }
  let loss := batchLoss f m1.params b
  let m2 : Model := { m1 with grads := vadd m1.grads (g m1.params b) }
  let m3 : Model := { m2 with params := sgdUpdate a.lr m2.params m2.grads }
  if batchIdx % a.log_interval = 0 then
    (m3, [Event.forwardPass true, Event.localStep, Event.reveal (RevealedValue.scalarLoss loss)])
  else
    (m3, [Event.forwardPass true, Event.localStep])

/-- The `for batch_idx, (data, target) in enumerate(private_train_loader)`
loop of `train`. -/
def trainLoop (a : Arguments) (f : Vec → Vec → Vec) (g : Vec → TrainBatch → Vec) :
    Model → Nat → List TrainBatch → Model × List Event
  | m, _, [] => (m, [])
  | m, idx, b :: bs =>
      let s := trainStep a f g m idx b
      let r := trainLoop a f g s.1 (idx + 1) bs
      (r.1, s.2 ++ r.2)

/-- `train(args, model, private_train_loader, optimizer, epoch)`:
`model.train()` then the batch loop, enumerating from index 0. -/
def train (a : Arguments) (f : Vec → Vec → Vec) (g : Vec → TrainBatch → Vec)
    (m : Model) (loader : List TrainBatch) (epoch : Nat) : Model × List Event :=
  let _ := epoch
  trainLoop a f g { m with training := true } 0 loader

/-- Index of the (first) maximal entry, auxiliary accumulator form. -/
def argmaxAux : List ℚ → Nat → Nat → ℚ → Nat
  | [], _, best, _ => best
  | x :: xs, i, best, bv => if bv < x then argmaxAux xs (i + 1) i x else argmaxAux xs (i + 1) best bv

/-- `output.argmax(dim=1)` on one row. -/
def argmax : List ℚ → Nat
  | [] => 0
  | x :: xs => argmaxAux xs 1 0 x

/-- `pred.eq(target.view_as(pred)).sum()` for one batch: the number of
examples whose predicted class matches the label. -/
def countCorrectB (f : Vec → Vec → Vec) (p : Vec) (b : TestBatch) : ℚ :=
  (List.zipWith (fun x t => if ((argmax (f p x) : ℚ) = t) then (1 : ℚ) else 0) b.data b.target).sum

/-- The `for data, target in private_test_loader` loop of `test`, run under
`torch.no_grad()`: accumulates the correct-prediction count, emitting a
gradient-tracking-disabled forward pass per batch. -/
def testLoop (f : Vec → Vec → Vec) (p : Vec) : List TestBatch → ℚ × List Event
  | [] => (0, [])
  | b :: bs =>
      let r := testLoop f p bs
      (countCorrectB f p b + r.1, Event.forwardPass false :: r.2)

/-- `test(args, model, private_test_loader)`: `model.eval()`, the no-grad
loop, then the single reveal `correct.get().float_precision()` of the
aggregate correct count. -/
def test (a : Arguments) (f : Vec → Vec → Vec) (m : Model) (loader : List TestBatch) :
    Model × List Event :=
  let _ := a
  let m1 : Model := { m with training := false }
  let r := testLoop f m1.params loader
  (m1, r.2 ++ [Event.reveal (RevealedValue.correctCount r.1)])

/-- The total correct count accumulated by `test`. -/
def totalCorrect (f : Vec → Vec → Vec) (p : Vec) (loader : List TestBatch) : ℚ :=
  (loader.map (countCorrectB f p)).sum

/-- The epoch loop of the driver cell, iterating over a given list of epoch
numbers: `train(args, model, private_train_loader, optimizer, epoch)` then
`test(args, model, private_test_loader)`. -/
def runEpochs (a : Arguments) (f : Vec → Vec → Vec) (g : Vec → TrainBatch → Vec)
    (trL : List TrainBatch) (teL : List TestBatch) : Model → List Nat → Model × List Event
  | m, [] => (m, [])
  | m, e :: es =>
      let t1 := train a f g m trL e
      let t2 := test a f t1.1 teL
      let r := runEpochs a f g trL teL t2.1 es
      (r.1, t1.2 ++ t2.2 ++ r.2)

/-- `for epoch in range(1, args.epochs + 1): train(...); test(...)`. -/
def run (a : Arguments) (f : Vec → Vec → Vec) (g : Vec → TrainBatch → Vec)
    (m : Model) (trL : List TrainBatch) (teL : List TestBatch) : Model × List Event :=
  runEpochs a f g trL teL m (List.range' 1 a.epochs)

/-- Event-trace shape of the epoch loop: one `train` trace followed by one
`test` trace per epoch number, with the full train loader consumed anew from
the start in every epoch. -/
def epochBlocks (a : Arguments) (f : Vec → Vec → Vec) (g : Vec → TrainBatch → Vec)
    (trL : List TrainBatch) (teL : List TestBatch) : Model → List Nat → List Event
  | _, [] => []
  | m, e :: es =>
      (train a f g m trL e).2 ++ (test a f (train a f g m trL e).1 teL).2
        ++ epochBlocks a f g trL teL (test a f (train a f g m trL e).1 teL).1 es

/-- An event is within the disclosure boundary: any non-reveal operation, or
a reveal of the scalar loss or of the aggregate correct count.  A reveal of a
parameter tensor or of a batch tensor is outside the boundary. -/
def disclosureOK : Event → Bool
  | Event.reveal (RevealedValue.scalarLoss _) => true
  | Event.reveal (RevealedValue.correctCount _) => true
  | Event.reveal _ => false
  | _ => true

/-- Whether an event is a reveal. -/
def isReveal : Event → Bool
  | Event.reveal _ => true
  | _ => false

/-- Whether an event is a local-step-executor invocation. -/
def isLocalStep : Event → Bool
  | Event.localStep => true
  | _ => false

/-- Whether an event respects disabled gradient tracking: any non-forward
event, or a forward pass with gradient tracking off. -/
def gradTrackingOff : Event → Bool
  | Event.forwardPass b => !b
  | _ => true

/-- Whether an event, if it is a reveal, reveals exactly the aggregate
correct count `c`. -/
def revealsOnlyAgg (c : ℚ) : Event → Bool
  | Event.reveal v => decide (v = RevealedValue.correctCount c)
  | _ => true

/-- Which MNIST split a `torchvision.datasets.MNIST` call loads. -/
inductive MNISTSplit where
  | train
  | test
deriving DecidableEq

/-- `n_train_items = 640` in the data-loader cell. -/
def n_train_items : Nat := 640

/-- `n_test_items = 640` in the data-loader cell. -/
def n_test_items : Nat := 640

/-- The split loaded for the training loader:
`datasets.MNIST('../data', train=True, ...)`. -/
def trainLoaderSplit : MNISTSplit := MNISTSplit.train

/-- The split loaded for the test loader: the source also passes
`train=True` here (`datasets.MNIST('../data', train=True, ...)`). -/
def testLoaderSplit : MNISTSplit := MNISTSplit.train

/-- The MNIST training split has 60000 examples, so a sequential
(non-shuffled) loader with batch size 64 yields 938 batches. -/
def mnistTrainBatches : Nat := 938

/-- The batch indices kept by the comprehension
`if i < n_items / batch_size` over the enumerated loader. -/
def selectedBatches (nItems batchSize totalBatches : Nat) : List Nat :=
  (List.range totalBatches).filter (fun i => i < nItems / batchSize)

/-- The example indices contained in batch `i` of a sequential loader with
the given batch size. -/
def batchExampleIdxs (batchSize i : Nat) : List Nat :=
  (List.range batchSize).map (fun k => i * batchSize + k)

/-- The (split, example-index) pairs a private loader is built from. -/
def loaderExampleSet (split : MNISTSplit) (nItems batchSize totalBatches : Nat) :
    List (MNISTSplit × Nat) :=
  (selectedBatches nItems batchSize totalBatches).flatMap
    (fun i => (batchExampleIdxs batchSize i).map (fun j => (split, j)))

/-- The examples secret-shared into `private_train_loader`. -/
def privateTrainExamples : List (MNISTSplit × Nat) :=
  loaderExampleSet trainLoaderSplit n_train_items args.batch_size mnistTrainBatches

/-- The examples secret-shared into `private_test_loader`. -/
def privateTestExamples : List (MNISTSplit × Nat) :=
  loaderExampleSet testLoaderSplit n_test_items args.test_batch_size mnistTrainBatches

/-- A model of the federated-averaging variant: the ordered list of parameter
tensors, each worker holding a full plaintext copy. -/
abbrev FedModel := List (List ℚ)

/-- Pointwise sum of two parameter tensors. -/
def vsum (a b : List ℚ) : List ℚ := List.zipWith (fun x y => x + y) a b

/-- Tensor-wise sum of two models. -/
def msum (a b : FedModel) : FedModel := List.zipWith vsum a b

/-- Modelled from the spec: `utils.federated_avg`
(`syft.frameworks.torch.federated.utils`), not present under `src/`: computes
the element-wise mean of each corresponding parameter tensor across the
workers' model copies. -/
def federated_avg (ms : List FedModel) : FedModel :=
  match ms with
  | [] => []
  | m :: rest =>
      (rest.foldl msum m).map (fun t => t.map (fun x => x / ((rest.length : ℚ) + 1)))

/-- Entry `j` of parameter tensor `i` of a model. -/
def entry (M : FedModel) (i j : Nat) : ℚ := (M.getD i []).getD j 0

/-- Pointwise scaling of a model (proof auxiliary). -/
def scaleM (c : ℚ) (M : FedModel) : FedModel := M.map (fun t => t.map (fun x => c * x))

/-- Observable events of the federated-averaging orchestration. -/
inductive FedEvent where
  | fitted (worker : Nat) (nBatches : Nat)
  | aggregated (pre : List FedModel) (postCopies : List FedModel)
  | exhaustedStop
  | evaluated
deriving DecidableEq

/-- The per-worker local-training log events of one window: worker `w`
trained on however many batches its stream could supply, up to the window
size. -/
def fitEvents {β : Type} (window : Nat) (streams : List (List β)) : List FedEvent :=
  ((streams.map (fun s => (s.take window).length)).enum).map (fun p => FedEvent.fitted p.1 p.2)

/-- Modelled from the spec: `rwc.train` of `run_websocket_client.py` (absent
from `src/`, only called by the notebook): partitions each worker's batch
stream into windows of `federate_after_n_batches` batches; in each window
every worker trains its own copy starting from the shared baseline; if every
stream still had a full window the aggregator averages all copies and
broadcasts the average back to every worker as the new baseline; if any
worker's stream is exhausted before completing the window, it logs the event
and terminates the round without averaging.  `fuel` bounds the number of
windows. -/
def fedTrain {β : Type} (window : Nat) (localFit : FedModel → β → FedModel) :
    Nat → FedModel → List (List β) → FedModel × List FedEvent
  | 0, m, _ => (m, [])
  | Nat.succ fuel, m, streams =>
      if streams.all (fun s => decide (window ≤ s.length)) then
        let trained := streams.map (fun s => (s.take window).foldl localFit m)
        let avg := federated_avg trained
        let next := fedTrain window localFit fuel avg (streams.map (fun s => s.drop window))
        (next.1,
          fitEvents window streams
            ++ FedEvent.aggregated trained (List.replicate streams.length avg) :: next.2)
      else
        (m, fitEvents window streams ++ [FedEvent.exhaustedStop])

/-- The epoch loop of the federated notebook (cell 17):
`for epoch in range(1, args.epochs + 1): model = rwc.train(...); rwc.test(...)`;
every epoch re-iterates the federated loader and is followed by evaluation. -/
def fedEpochs {β : Type} (window : Nat) (localFit : FedModel → β → FedModel) (fuel : Nat)
    (streams : List (List β)) : FedModel → Nat → FedModel × List FedEvent
  | m, 0 => (m, [])
  | m, Nat.succ n =>
      let r := fedTrain window localFit fuel m streams
      let rest := fedEpochs window localFit fuel streams r.1 n
      (rest.1, r.2 ++ FedEvent.evaluated :: rest.2)

/-- Whether a federated event is an aggregation. -/
def isAggregated : FedEvent → Bool
  | FedEvent.aggregated _ _ => true
  | _ => false

/-- Whether an aggregation event broadcast exactly the federated average of
the fetched copies to every worker. -/
def aggBroadcastOK : FedEvent → Bool
  | FedEvent.aggregated pre post => decide (post = List.replicate post.length (federated_avg pre))
  | _ => true

/-- Whether an aggregation event left every worker's post-broadcast copy
numerically identical to every other worker's copy. -/
def copiesEqualOK : FedEvent → Bool
  | FedEvent.aggregated _ post => decide (∀ c1 ∈ post, ∀ c2 ∈ post, c1 = c2)
  | _ => true

/-- A concrete forward function for witnesses: returns the input row. -/
def demoF : Vec → Vec → Vec := fun _ x => x

/-- A concrete autograd gradient for witnesses: the parameters themselves. -/
def demoG : Vec → TrainBatch → Vec := fun p _ => p

/-- A concrete model state for witnesses. -/
def demoModel : Model := ⟨[1, 2], [5, 7], true⟩

/-- A concrete training batch for witnesses. -/
def demoBatch : TrainBatch := ⟨[[1, 0]], [[0, 1]]⟩

/-- A concrete local-fit function for federated witnesses (identity). -/
def unitFit : FedModel → Unit → FedModel := fun mm _ => mm

lemma vadd_zeroGrads : ∀ (xs ys : Vec), xs.length = ys.length → vadd (zeroGrads xs) ys = ys := by
  intro xs
  induction xs with
  | nil =>
      intro ys h
      cases ys with
      | nil => rfl
      | cons y ys => simp at h
  | cons x xs ih =>
      intro ys h
      cases ys with
      | nil => simp at h
      | cons y ys =>
          simp only [zeroGrads, vadd, List.map_cons, List.zipWith_cons_cons, zero_add]
          simp only [List.length_cons, Nat.add_right_cancel_iff] at h
          simpa [zeroGrads, vadd] using ih ys h

lemma trainStep_fst (a : Arguments) (f : Vec → Vec → Vec) (g : Vec → TrainBatch → Vec)
    (m : Model) (i : Nat) (b : TrainBatch) :
    (trainStep a f g m i b).1
      = ⟨sgdUpdate a.lr m.params (vadd (zeroGrads m.grads) (g m.params b)),
         vadd (zeroGrads m.grads) (g m.params b), m.training⟩ := by
  unfold trainStep
  by_cases h : i % a.log_interval = 0 <;> simp [h]

lemma trainStep_all_disclosure (a : Arguments) (f : Vec → Vec → Vec) (g : Vec → TrainBatch → Vec)
    (m : Model) (i : Nat) (b : TrainBatch) :
    ((trainStep a f g m i b).2).all disclosureOK = true := by
  unfold trainStep
  by_cases h : i % a.log_interval = 0 <;> simp [h, disclosureOK]

lemma trainLoop_all_disclosure (a : Arguments) (f : Vec → Vec → Vec) (g : Vec → TrainBatch → Vec) :
    ∀ (bs : List TrainBatch) (m : Model) (idx : Nat),
    ((trainLoop a f g m idx bs).2).all disclosureOK = true := by
  intro bs
  induction bs with
  | nil => intro m idx; simp [trainLoop]
  | cons b bs ih => intro m idx; simp [trainLoop, List.all_append, trainStep_all_disclosure, ih]

lemma train_all_disclosure (a : Arguments) (f : Vec → Vec → Vec) (g : Vec → TrainBatch → Vec)
    (m : Model) (trL : List TrainBatch) (e : Nat) :
    ((train a f g m trL e).2).all disclosureOK = true := by
  simp [train, trainLoop_all_disclosure]

lemma testLoop_all_disclosure (f : Vec → Vec → Vec) (p : Vec) :
    ∀ (bs : List TestBatch), ((testLoop f p bs).2).all disclosureOK = true := by
  intro bs
  induction bs with
  | nil => simp [testLoop]
  | cons b bs ih => simp [testLoop, disclosureOK, ih]

lemma test_all_disclosure (a : Arguments) (f : Vec → Vec → Vec) (m : Model) (teL : List TestBatch) :
    ((test a f m teL).2).all disclosureOK = true := by
  simp [test, List.all_append, testLoop_all_disclosure, disclosureOK]

lemma runEpochs_all_disclosure (a : Arguments) (f : Vec → Vec → Vec) (g : Vec → TrainBatch → Vec)
    (trL : List TrainBatch) (teL : List TestBatch) :
    ∀ (es : List Nat) (m : Model), ((runEpochs a f g trL teL m es).2).all disclosureOK = true := by
  intro es
  induction es with
  | nil => intro m; simp [runEpochs]
  | cons e es ih =>
      intro m
      simp [runEpochs, List.all_append, train_all_disclosure, test_all_disclosure, ih]

/-- Claim C1: in every execution of the orchestration, the only reveal/decrypt
events are the scalar loss revealed by the periodic loss-logging step of the
training loop (which fires exactly when `batch_idx % log_interval == 0`) and
the aggregate correct count revealed by the evaluator; no full parameter
tensor or full batch tensor is ever revealed. -/
theorem disclosure_boundary_narrow :
    ∀ (a : Arguments) (f : Vec → Vec → Vec) (g : Vec → TrainBatch → Vec) (m : Model)
      (trL : List TrainBatch) (teL : List TestBatch),
      (((run a f g m trL teL).2).all disclosureOK = true)
      ∧ (∀ (a2 : Arguments) (f2 : Vec → Vec → Vec) (g2 : Vec → TrainBatch → Vec)
           (m2 : Model) (i : Nat) (b : TrainBatch),
          ((trainStep a2 f2 g2 m2 i b).2).countP isReveal
            = if i % a2.log_interval = 0 then 1 else 0) := by
  intro a f g m trL teL
  constructor
  · simp [run, runEpochs_all_disclosure]
  · intro a2 f2 g2 m2 i b
    unfold trainStep
    by_cases h : i % a2.log_interval = 0 <;> simp [h, isReveal]

lemma trainStep_countSteps (a : Arguments) (f : Vec → Vec → Vec) (g : Vec → TrainBatch → Vec)
    (m : Model) (i : Nat) (b : TrainBatch) :
    ((trainStep a f g m i b).2).countP isLocalStep = 1 := by
  unfold trainStep
  by_cases h : i % a.log_interval = 0 <;> simp [h, isLocalStep]

lemma trainLoop_countSteps (a : Arguments) (f : Vec → Vec → Vec) (g : Vec → TrainBatch → Vec) :
    ∀ (bs : List TrainBatch) (m : Model) (idx : Nat),
    ((trainLoop a f g m idx bs).2).countP isLocalStep = bs.length := by
  intro bs
  induction bs with
  | nil => intro m idx; simp [trainLoop]
  | cons b bs ih =>
      intro m idx
      simp [trainLoop, List.countP_append, trainStep_countSteps, ih, Nat.add_comm]

lemma train_countSteps (a : Arguments) (f : Vec → Vec → Vec) (g : Vec → TrainBatch → Vec)
    (m : Model) (trL : List TrainBatch) (e : Nat) :
    ((train a f g m trL e).2).countP isLocalStep = trL.length := by
  simp [train, trainLoop_countSteps]

lemma testLoop_countSteps (f : Vec → Vec → Vec) (p : Vec) :
    ∀ (bs : List TestBatch), ((testLoop f p bs).2).countP isLocalStep = 0 := by
  intro bs
  induction bs with
  | nil => simp [testLoop]
  | cons b bs ih => simp [testLoop, isLocalStep, ih]

lemma test_countSteps (a : Arguments) (f : Vec → Vec → Vec) (m : Model) (teL : List TestBatch) :
    ((test a f m teL).2).countP isLocalStep = 0 := by
  simp [test, List.countP_append, testLoop_countSteps, isLocalStep]

lemma runEpochs_countSteps (a : Arguments) (f : Vec → Vec → Vec) (g : Vec → TrainBatch → Vec)
    (trL : List TrainBatch) (teL : List TestBatch) :
    ∀ (es : List Nat) (m : Model),
    ((runEpochs a f g trL teL m es).2).countP isLocalStep = es.length * trL.length := by
  intro es
  induction es with
  | nil => intro m; simp [runEpochs]
  | cons e es ih =>
      intro m
      simp only [runEpochs, List.countP_append, train_countSteps, test_countSteps, ih,
        List.length_cons]
      ring

/-- Claim C3: for every epoch and every finite batch list produced by the
loader, the number of local-step-executor invocations in that epoch equals
the number of batches the loader yields, and over the whole run the total is
`epochs * batches` — no batch is skipped and none is processed twice. -/
theorem local_steps_match_batches :
    ∀ (a : Arguments) (f : Vec → Vec → Vec) (g : Vec → TrainBatch → Vec) (m : Model)
      (trL : List TrainBatch) (teL : List TestBatch),
      (∀ (m2 : Model) (e : Nat), ((train a f g m2 trL e).2).countP isLocalStep = trL.length)
      ∧ ((run a f g m trL teL).2).countP isLocalStep = a.epochs * trL.length := by
  intro a f g m trL teL
  refine ⟨fun m2 e => train_countSteps a f g m2 trL e, ?_⟩
  simp [run, runEpochs_countSteps]

lemma testLoop_fst (f : Vec → Vec → Vec) (p : Vec) :
    ∀ (bs : List TestBatch), (testLoop f p bs).1 = (bs.map (countCorrectB f p)).sum := by
  intro bs
  induction bs with
  | nil => simp [testLoop]
  | cons b bs ih => simp [testLoop, ih]

lemma testLoop_all_gradOff (f : Vec → Vec → Vec) (p : Vec) :
    ∀ (bs : List TestBatch), ((testLoop f p bs).2).all gradTrackingOff = true := by
  intro bs
  induction bs with
  | nil => simp [testLoop]
  | cons b bs ih => simp [testLoop, gradTrackingOff, ih]

lemma testLoop_countReveal (f : Vec → Vec → Vec) (p : Vec) :
    ∀ (bs : List TestBatch), ((testLoop f p bs).2).countP isReveal = 0 := by
  intro bs
  induction bs with
  | nil => simp [testLoop]
  | cons b bs ih => simp [testLoop, isReveal, ih]

lemma testLoop_revealsAgg (f : Vec → Vec → Vec) (p : Vec) (c : ℚ) :
    ∀ (bs : List TestBatch), ((testLoop f p bs).2).all (revealsOnlyAgg c) = true := by
  intro bs
  induction bs with
  | nil => simp [testLoop]
  | cons b bs ih => simp [testLoop, revealsOnlyAgg, ih]

/-- Claim C6: the evaluator runs every forward pass with gradient tracking
disabled, accumulates a correct-prediction count over the test batches,
performs exactly one reveal, whose value is the final aggregate correct
count (never a per-example prediction), and leaves every model parameter
(and every gradient) unchanged. -/
theorem test_preserves_model :
    ∀ (a : Arguments) (f : Vec → Vec → Vec) (m : Model) (teL : List TestBatch),
      (test a f m teL).1.params = m.params
      ∧ (test a f m teL).1.grads = m.grads
      ∧ ((test a f m teL).2).all gradTrackingOff = true
      ∧ ((test a f m teL).2).countP isReveal = 1
      ∧ ((test a f m teL).2).all (revealsOnlyAgg (totalCorrect f m.params teL)) = true := by
  intro a f m teL
  refine ⟨rfl, rfl, ?_, ?_, ?_⟩
  · simp [test, List.all_append, testLoop_all_gradOff, gradTrackingOff]
  · simp [test, List.countP_append, testLoop_countReveal, isReveal]
  · simp [test, List.all_append, testLoop_revealsAgg, revealsOnlyAgg, totalCorrect, testLoop_fst]

/-- Claim C10 (implicit): in the secret-sharing training loop the gradients
are zeroed by `optimizer.zero_grad()` before every backward pass, so the
gradients the optimizer step consumes are exactly the current batch's
gradients — they never accumulate across batches. -/
theorem zero_grad_no_accumulation :
    ∀ (a : Arguments) (f : Vec → Vec → Vec) (g : Vec → TrainBatch → Vec) (m : Model)
      (i : Nat) (b : TrainBatch),
      ((trainStep a f g m i b).1.grads = vadd (zeroGrads m.grads) (g m.params b))
      ∧ (m.grads.length = (g m.params b).length →
          (trainStep a f g m i b).1.grads = g m.params b) := by
  intro a f g m i b
  have hg : (trainStep a f g m i b).1.grads = vadd (zeroGrads m.grads) (g m.params b) := by
    rw [trainStep_fst]
  exact ⟨hg, fun hlen => hg.trans (vadd_zeroGrads m.grads (g m.params b) hlen)⟩

/-- Witness for C10, at the concrete demo model, batch and gradient
function. -/
theorem zero_grad_no_accumulation_witness :
    (trainStep args demoF demoG demoModel 0 demoBatch).1.grads
      = demoG demoModel.params demoBatch :=
  (zero_grad_no_accumulation args demoF demoG demoModel 0 demoBatch).2 (by decide)

lemma zipWith_map_eq_range (f : Vec → Vec → Vec) (p : Vec) (K : Vec → Vec → ℚ) :
    ∀ (dat tgt : List Vec), tgt.length = dat.length →
      List.zipWith K (dat.map (f p)) tgt
        = (List.range dat.length).map (fun i => K (f p (dat.getD i [])) (tgt.getD i [])) := by
  intro dat
  induction dat with
  | nil =>
      intro tgt h
      simp
  | cons d ds ih =>
      intro tgt h
      cases tgt with
      | nil => simp at h
      | cons t ts =>
          simp only [List.length_cons, Nat.add_right_cancel_iff] at h
          simp only [List.map_cons, List.zipWith_cons_cons, List.length_cons,
            List.range_succ_eq_map, List.map_map]
          congr 1
          rw [ih ts h]
          apply List.map_congr_left
          intro i _
          simp [Function.comp, List.getD, List.getElem?_cons_succ]

lemma batchLoss_eq_spec (f : Vec → Vec → Vec) (p : Vec) (b : TrainBatch)
    (h : b.target.length = b.data.length) :
    batchLoss f p b = specMeanSquaredError f p b := by
  unfold batchLoss specMeanSquaredError
  rw [zipWith_map_eq_range f p _ b.data b.target h]
  simp

/-- Claim C2: the local step executor of the secret-sharing variant computes
a mean-squared-error loss equal to the mean over the batch of the squared
difference between the model output and the one-hot target, and (after the
backward pass producing this batch's gradients) applies exactly one SGD
optimizer step `p := p - lr * grad` with the fixed learning rate. -/
theorem trainStep_mse_sgd :
    ∀ (a : Arguments) (f : Vec → Vec → Vec) (g : Vec → TrainBatch → Vec) (m : Model)
      (i : Nat) (b : TrainBatch),
      b.target.length = b.data.length →
      m.grads.length = (g m.params b).length →
      batchLoss f m.params b = specMeanSquaredError f m.params b
      ∧ (trainStep a f g m i b).1.params = sgdUpdate a.lr m.params (g m.params b)
      ∧ Event.forwardPass true ∈ (trainStep a f g m i b).2
      ∧ Event.localStep ∈ (trainStep a f g m i b).2 := by
  intro a f g m i b h1 h2
  refine ⟨batchLoss_eq_spec f m.params b h1, ?_, ?_, ?_⟩
  · rw [trainStep_fst]
    simp only
    rw [vadd_zeroGrads m.grads (g m.params b) h2]
  · unfold trainStep
    by_cases h : i % a.log_interval = 0 <;> simp [h]
  · unfold trainStep
    by_cases h : i % a.log_interval = 0 <;> simp [h]

/-- Witness for C2, at the concrete demo forward function, gradient
function, model and batch. -/
theorem trainStep_mse_sgd_witness :
    batchLoss demoF demoModel.params demoBatch
      = specMeanSquaredError demoF demoModel.params demoBatch
    ∧ (trainStep args demoF demoG demoModel 0 demoBatch).1.params
        = sgdUpdate args.lr demoModel.params (demoG demoModel.params demoBatch)
    ∧ Event.forwardPass true ∈ (trainStep args demoF demoG demoModel 0 demoBatch).2
    ∧ Event.localStep ∈ (trainStep args demoF demoG demoModel 0 demoBatch).2 :=
  trainStep_mse_sgd args demoF demoG demoModel 0 demoBatch (by decide) (by decide)

lemma runEpochs_eq_epochBlocks (a : Arguments) (f : Vec → Vec → Vec) (g : Vec → TrainBatch → Vec)
    (trL : List TrainBatch) (teL : List TestBatch) :
    ∀ (es : List Nat) (m : Model),
    (runEpochs a f g trL teL m es).2 = epochBlocks a f g trL teL m es := by
  intro es
  induction es with
  | nil => intro m; simp [runEpochs, epochBlocks]
  | cons e es ih => intro m; simp [runEpochs, epochBlocks, ih]

/-- Claim C7: the round/epoch driver iterates the epoch numbers
`1, ..., args.epochs` in order; each epoch's event block is one full `train`
pass over the whole loader (one local step per batch, the loader consumed
anew from the start) followed by one `test` pass, so training and evaluation
alternate exactly `args.epochs` times in that order. -/
theorem epoch_driver_alternates :
    ∀ (a : Arguments) (f : Vec → Vec → Vec) (g : Vec → TrainBatch → Vec) (m : Model)
      (trL : List TrainBatch) (teL : List TestBatch),
      ((run a f g m trL teL).2 = epochBlocks a f g trL teL m (List.range' 1 a.epochs))
      ∧ (List.range' 1 a.epochs).length = a.epochs
      ∧ (∀ (m2 : Model) (e : Nat),
          ((train a f g m2 trL e).2).countP isLocalStep = trL.length)
      ∧ (∀ (m2 : Model) (_e : Nat), ((test a f m2 teL).2).countP isLocalStep = 0) := by
  intro a f g m trL teL
  exact ⟨runEpochs_eq_epochBlocks a f g trL teL (List.range' 1 a.epochs) m,
    by simp,
    fun m2 e => train_countSteps a f g m2 trL e,
    fun m2 _e => test_countSteps a f m2 teL⟩

set_option maxRecDepth 8000 in
/-- Claim C9 is violated by the code: `get_private_data_loaders` builds the
private test loader from `datasets.MNIST('../data', train=True, ...)` — the
same training split as the train loader — and keeps the same first
`640 / 64 = 10` batches, so the evaluator's example set is identical to (in
particular, not disjoint from) the training example set; example 0 of the
training split is in both. -/
theorem private_test_loader_reuses_train_data :
    testLoaderSplit = trainLoaderSplit
    ∧ privateTrainExamples = privateTestExamples
    ∧ (MNISTSplit.train, 0) ∈ privateTrainExamples
    ∧ (MNISTSplit.train, 0) ∈ privateTestExamples := by
  refine ⟨rfl, rfl, ?_, ?_⟩ <;> decide

lemma vsum_scale_self (c : ℚ) :
    ∀ (t : List ℚ), vsum (t.map (fun x => c * x)) t = t.map (fun x => (c + 1) * x) := by
  intro t
  induction t with
  | nil => rfl
  | cons x xs ih =>
      simp only [vsum, List.map_cons, List.zipWith_cons_cons] at ih ⊢
      refine congrArg₂ List.cons (by ring) ih

lemma msum_scale_self (c : ℚ) :
    ∀ (M : FedModel), msum (scaleM c M) M = scaleM (c + 1) M := by
  intro M
  induction M with
  | nil => rfl
  | cons t M ih =>
      simp only [msum, scaleM, List.map_cons, List.zipWith_cons_cons] at ih ⊢
      exact congrArg₂ List.cons (vsum_scale_self c t) ih

lemma scaleM_one (M : FedModel) : scaleM 1 M = M := by
  simp [scaleM]

lemma foldl_msum_replicate (M : FedModel) :
    ∀ (k : Nat) (c : ℚ),
      (List.replicate k M).foldl msum (scaleM c M) = scaleM (c + k) M := by
  intro k
  induction k with
  | zero => intro c; simp
  | succ k ih =>
      intro c
      rw [List.replicate_succ, List.foldl_cons, msum_scale_self c M, ih (c + 1)]
      congr 1
      push_cast
      ring

lemma map_scale_div (c : ℚ) (hc : c ≠ 0) :
    ∀ (t : List ℚ), (t.map (fun x => c * x)).map (fun x => x / c) = t := by
  intro t
  induction t with
  | nil => rfl
  | cons x xs ih =>
      simp only [List.map_cons]
      exact congrArg₂ List.cons (mul_div_cancel_left₀ x hc) ih

lemma scaleM_map_div (c : ℚ) (hc : c ≠ 0) :
    ∀ (M : FedModel), (scaleM c M).map (fun t => t.map (fun x => x / c)) = M := by
  intro M
  induction M with
  | nil => rfl
  | cons t M ih =>
      simp only [scaleM, List.map_cons] at ih ⊢
      exact congrArg₂ List.cons (map_scale_div c hc t) ih

/-- Claim C8: aggregation idempotence — for every `n ≥ 1` and every model,
the federated average of `n` identical copies is (exactly, over ℚ) that
model. -/
theorem federated_avg_idempotent :
    ∀ (n : Nat) (M : FedModel), 1 ≤ n → federated_avg (List.replicate n M) = M := by
  intro n M h
  obtain ⟨k, rfl⟩ : ∃ k, n = k + 1 := ⟨n - 1, by omega⟩
  rw [List.replicate_succ]
  show (((List.replicate k M).foldl msum M).map
      (fun t => t.map (fun x => x / (((List.replicate k M).length : ℚ) + 1)))) = M
  have hfold : (List.replicate k M).foldl msum M = scaleM (1 + (k : ℚ)) M := by
    have h1 := foldl_msum_replicate M k 1
    rwa [scaleM_one] at h1
  rw [hfold, List.length_replicate]
  have hk : ((k : ℚ) + 1) ≠ 0 := by positivity
  have hswap : (1 + (k : ℚ)) = ((k : ℚ) + 1) := by ring
  rw [hswap]
  exact scaleM_map_div ((k : ℚ) + 1) hk M

/-- Witness for C8, averaging three identical concrete copies. -/
theorem federated_avg_idempotent_witness :
    federated_avg (List.replicate 3 [[(1 : ℚ), 2], [3]]) = [[(1 : ℚ), 2], [3]] :=
  federated_avg_idempotent 3 [[(1 : ℚ), 2], [3]] (by decide)

lemma getD_zipWith {α β γ : Type} (F : α → β → γ) :
    ∀ (l1 : List α) (l2 : List β) (i : Nat) (d1 : α) (d2 : β) (d3 : γ),
      i < l1.length → i < l2.length →
      (List.zipWith F l1 l2).getD i d3 = F (l1.getD i d1) (l2.getD i d2) := by
  intro l1
  induction l1 with
  | nil => intro l2 i d1 d2 d3 h1 h2; simp at h1
  | cons a l1 ih =>
      intro l2 i d1 d2 d3 h1 h2
      cases l2 with
      | nil => simp at h2
      | cons b l2 =>
          cases i with
          | zero => simp
          | succ i =>
              simp only [List.zipWith_cons_cons, List.getD_cons_succ]
              exact ih l2 i d1 d2 d3 (by simpa using h1) (by simpa using h2)

lemma getD_map_of_lt {α γ : Type} (F : α → γ) (d : α) (d2 : γ) :
    ∀ (l : List α) (i : Nat), i < l.length → (l.map F).getD i d2 = F (l.getD i d) := by
  intro l
  induction l with
  | nil => intro i h; simp at h
  | cons a l ih =>
      intro i h
      cases i with
      | zero => simp
      | succ i =>
          simp only [List.map_cons, List.getD_cons_succ]
          exact ih i (by simpa using h)

lemma msum_getD_row (a b : FedModel) (i : Nat) (ha : i < a.length) (hb : i < b.length) :
    (msum a b).getD i [] = vsum (a.getD i []) (b.getD i []) :=
  getD_zipWith vsum a b i [] [] [] ha hb

lemma entry_msum (a b : FedModel) (i j : Nat)
    (ha : i < a.length) (hb : i < b.length)
    (haj : j < (a.getD i []).length) (hbj : j < (b.getD i []).length) :
    entry (msum a b) i j = entry a i j + entry b i j := by
  unfold entry
  rw [msum_getD_row a b i ha hb]
  unfold vsum
  exact getD_zipWith (fun x y => x + y) _ _ j 0 0 0 haj hbj

lemma foldl_msum_entry :
    ∀ (rest : List FedModel) (m0 : FedModel) (i j : Nat),
      i < m0.length → j < (m0.getD i []).length →
      (∀ r ∈ rest, i < r.length ∧ j < (r.getD i []).length) →
      entry (rest.foldl msum m0) i j = entry m0 i j + (rest.map (fun r => entry r i j)).sum
      ∧ i < (rest.foldl msum m0).length
      ∧ j < ((rest.foldl msum m0).getD i []).length := by
  intro rest
  induction rest with
  | nil => intro m0 i j h1 h2 _; exact ⟨by simp, h1, h2⟩
  | cons r rs ih =>
      intro m0 i j h1 h2 hall
      obtain ⟨hr1, hr2⟩ := hall r (List.mem_cons_self r rs)
      have hlen : i < (msum m0 r).length := by
        simp only [msum, List.length_zipWith]
        omega
      have hrow : (msum m0 r).getD i [] = vsum (m0.getD i []) (r.getD i []) :=
        msum_getD_row m0 r i h1 hr1
      have hrowlen : j < ((msum m0 r).getD i []).length := by
        rw [hrow]
        simp only [vsum, List.length_zipWith]
        omega
      have hrest : ∀ x ∈ rs, i < x.length ∧ j < (x.getD i []).length :=
        fun x hx => hall x (List.mem_cons_of_mem r hx)
      obtain ⟨he, hl1, hl2⟩ := ih (msum m0 r) i j hlen hrowlen hrest
      rw [List.foldl_cons]
      refine ⟨?_, hl1, hl2⟩
      rw [he, entry_msum m0 r i j h1 hr1 h2 hr2]
      simp only [List.map_cons, List.sum_cons]
      ring

lemma federated_avg_entry :
    ∀ (ms : List FedModel) (i j : Nat),
      ms ≠ [] →
      (∀ r ∈ ms, i < r.length ∧ j < (r.getD i []).length) →
      entry (federated_avg ms) i j
        = ((ms.map (fun r => entry r i j)).sum) / (ms.length : ℚ) := by
  intro ms i j hne hall
  match ms with
  | [] => exact absurd rfl hne
  | m :: rest =>
      obtain ⟨h1, h2⟩ := hall m (List.mem_cons_self m rest)
      have hrest : ∀ r ∈ rest, i < r.length ∧ j < (r.getD i []).length :=
        fun r hr => hall r (List.mem_cons_of_mem m hr)
      obtain ⟨he, hl1, hl2⟩ := foldl_msum_entry rest m i j h1 h2 hrest
      show entry ((rest.foldl msum m).map
          (fun t => t.map (fun x => x / ((rest.length : ℚ) + 1)))) i j = _
      unfold entry
      rw [getD_map_of_lt (fun t => t.map (fun x => x / ((rest.length : ℚ) + 1))) [] [] _ i hl1]
      rw [getD_map_of_lt (fun x => x / ((rest.length : ℚ) + 1)) 0 0 _ j hl2]
      have hent : ((rest.foldl msum m).getD i []).getD j 0 = entry (rest.foldl msum m) i j := rfl
      rw [hent, he]
      unfold entry
      simp only [List.map_cons, List.sum_cons, List.length_cons]
      push_cast
      ring

lemma fitEvents_all {β : Type} (P : FedEvent → Bool) (hP : ∀ w n, P (FedEvent.fitted w n) = true)
    (window : Nat) (streams : List (List β)) : (fitEvents window streams).all P = true := by
  simp only [fitEvents, List.all_eq_true]
  intro e he
  obtain ⟨p, _, rfl⟩ := List.mem_map.mp he
  exact hP p.1 p.2

lemma fedTrain_all {β : Type} (P : FedEvent → Bool)
    (hfit : ∀ w n, P (FedEvent.fitted w n) = true)
    (hstop : P FedEvent.exhaustedStop = true)
    (hagg : ∀ (pre : List FedModel),
      P (FedEvent.aggregated pre (List.replicate pre.length (federated_avg pre))) = true)
    (window : Nat) (localFit : FedModel → β → FedModel) :
    ∀ (fuel : Nat) (m : FedModel) (streams : List (List β)),
      ((fedTrain window localFit fuel m streams).2).all P = true := by
  intro fuel
  induction fuel with
  | zero => intro m streams; rfl
  | succ fuel ih =>
      intro m streams
      rw [fedTrain]
      by_cases h : streams.all (fun s => decide (window ≤ s.length)) = true
      · rw [if_pos h]
        simp only [List.all_append, List.all_cons, Bool.and_eq_true]
        refine ⟨fitEvents_all P hfit window streams, ?_, ih _ _⟩
        have hg := hagg (streams.map (fun s => (s.take window).foldl localFit m))
        simpa [List.length_map] using hg
      · rw [if_neg h]
        simp [List.all_append, fitEvents_all P hfit window streams, hstop]

lemma aggBroadcastOK_replicate (pre : List FedModel) :
    aggBroadcastOK
      (FedEvent.aggregated pre (List.replicate pre.length (federated_avg pre))) = true := by
  simp [aggBroadcastOK, List.length_replicate]

lemma copiesEqualOK_replicate (pre : List FedModel) :
    copiesEqualOK
      (FedEvent.aggregated pre (List.replicate pre.length (federated_avg pre))) = true := by
  simp only [copiesEqualOK, decide_eq_true_eq]
  intro c1 h1 c2 h2
  rw [List.eq_of_mem_replicate h1, List.eq_of_mem_replicate h2]

/-- Claim C4: in the federated-averaging variant, every aggregation event of
the round driver broadcasts exactly the federated average of the fetched
worker copies back to every worker, so immediately after each aggregation all
worker copies are numerically identical; and the federated average is the
element-wise mean of each corresponding parameter-tensor entry across the
workers. -/
theorem fedTrain_broadcast_identical :
    ∀ {β : Type} (window : Nat) (localFit : FedModel → β → FedModel) (fuel : Nat)
      (m : FedModel) (streams : List (List β)),
      ((fedTrain window localFit fuel m streams).2).all aggBroadcastOK = true
      ∧ ((fedTrain window localFit fuel m streams).2).all copiesEqualOK = true
      ∧ (∀ (pre post : List FedModel),
          FedEvent.aggregated pre post ∈ (fedTrain window localFit fuel m streams).2 →
          ∀ c ∈ post, c = federated_avg pre)
      ∧ (∀ (ms : List FedModel) (i j : Nat), ms ≠ [] →
          (∀ r ∈ ms, i < r.length ∧ j < (r.getD i []).length) →
          entry (federated_avg ms) i j
            = ((ms.map (fun r => entry r i j)).sum) / (ms.length : ℚ)) := by
  intro β window localFit fuel m streams
  have hall := fedTrain_all aggBroadcastOK (fun _ _ => rfl) rfl aggBroadcastOK_replicate
    window localFit fuel m streams
  refine ⟨hall, ?_, ?_, federated_avg_entry⟩
  · exact fedTrain_all copiesEqualOK (fun _ _ => rfl) rfl copiesEqualOK_replicate
      window localFit fuel m streams
  · intro pre post hmem c hc
    have h1 := List.all_eq_true.mp hall _ hmem
    simp only [aggBroadcastOK, decide_eq_true_eq] at h1
    rw [h1] at hc
    exact List.eq_of_mem_replicate hc

/-- Witness for C4: a two-worker run in which one aggregation occurs, and
the element-wise-mean formula at a concrete pair of one-entry models. -/
theorem fedTrain_broadcast_identical_witness :
    (federated_avg [[[(1 : ℚ)]], [[(1 : ℚ)]]] = federated_avg [[[(1 : ℚ)]], [[(1 : ℚ)]]])
    ∧ entry (federated_avg [[[(2 : ℚ)]], [[(4 : ℚ)]]]) 0 0
        = ((List.map (fun r => entry r 0 0) [[[(2 : ℚ)]], [[(4 : ℚ)]]]).sum)
          / ((List.length ([[[(2 : ℚ)]], [[(4 : ℚ)]]] : List FedModel) : Nat) : ℚ) := by
  constructor
  · have htr : (fedTrain 1 unitFit 1 [[(1 : ℚ)]] [[()], [()]]).2
        = fitEvents 1 [[()], [()]]
          ++ [FedEvent.aggregated [[[(1 : ℚ)]], [[(1 : ℚ)]]]
                (List.replicate 2 (federated_avg [[[(1 : ℚ)]], [[(1 : ℚ)]]]))] := rfl
    refine (fedTrain_broadcast_identical 1 unitFit 1 [[(1 : ℚ)]] [[()], [()]]).2.2.1
      [[[(1 : ℚ)]], [[(1 : ℚ)]]]
      (List.replicate 2 (federated_avg [[[(1 : ℚ)]], [[(1 : ℚ)]]])) ?_
      (federated_avg [[[(1 : ℚ)]], [[(1 : ℚ)]]])
      (List.mem_replicate.mpr ⟨by decide, rfl⟩)
    rw [htr]
    exact List.mem_append_right _ (List.mem_cons_self _ _)
  · exact (fedTrain_broadcast_identical 1 unitFit 0 [] ([] : List (List Unit))).2.2.2
      [[[(2 : ℚ)]], [[(4 : ℚ)]]] 0 0 (by decide) (by decide)

lemma fitEvents_countP_agg {β : Type} (window : Nat) (streams : List (List β)) :
    (fitEvents window streams).countP isAggregated = 0 := by
  rw [List.countP_eq_zero]
  intro e he
  obtain ⟨p, _, rfl⟩ := List.mem_map.mp he
  simp [isAggregated]

/-- Claim C5: if some worker's stream cannot supply a full window of
`federate_after_n_batches` batches, the round driver performs no averaging
for that window and terminates before any next window starts (its whole
event trace is the partial local fits followed by the logged exhaustion
stop, with zero aggregation events, and the incoming baseline model is kept);
the epoch loop then proceeds directly to evaluation. -/
theorem fedTrain_exhaustion_terminates :
    ∀ {β : Type} (window : Nat) (localFit : FedModel → β → FedModel) (fuel : Nat)
      (m : FedModel) (streams : List (List β)),
      streams.all (fun s => decide (window ≤ s.length)) = false →
      (fedTrain window localFit (fuel + 1) m streams
          = (m, fitEvents window streams ++ [FedEvent.exhaustedStop]))
      ∧ ((fedTrain window localFit (fuel + 1) m streams).2).countP isAggregated = 0
      ∧ (∀ (epochs : Nat),
          (fedEpochs window localFit (fuel + 1) streams m (epochs + 1)).2
            = (fedTrain window localFit (fuel + 1) m streams).2
              ++ FedEvent.evaluated
                :: (fedEpochs window localFit (fuel + 1) streams
                      (fedTrain window localFit (fuel + 1) m streams).1 epochs).2) := by
  intro β window localFit fuel m streams h
  have heq : fedTrain window localFit (fuel + 1) m streams
      = (m, fitEvents window streams ++ [FedEvent.exhaustedStop]) := by
    rw [fedTrain, if_neg (by simp [h])]
  refine ⟨heq, ?_, fun epochs => rfl⟩
  rw [heq]
  simp only [List.countP_append, fitEvents_countP_agg]
  simp [isAggregated]

/-- Witness for C5: a single worker whose one-batch stream cannot fill a
window of two. -/
theorem fedTrain_exhaustion_terminates_witness :
    fedTrain 2 unitFit 1 [[(1 : ℚ)]] [[()]]
        = ([[(1 : ℚ)]], fitEvents 2 [[()]] ++ [FedEvent.exhaustedStop])
    ∧ ((fedTrain 2 unitFit 1 [[(1 : ℚ)]] [[()]]).2).countP isAggregated = 0 := by
  have h := fedTrain_exhaustion_terminates 2 unitFit 0 [[(1 : ℚ)]] [[()]] (by decide)
  exact ⟨h.1, h.2.1⟩

end Syft
